import Mathlib

/-!
# Verification of `MySqlToHiveOperator`
  (airflow/providers/apache/hive/transfers/mysql_to_hive.py)

A shallow embedding of the operator's type-mapping table, field-dictionary
construction, CSV staging (writer/reader round trip), and the control flow of
`execute`, together with theorems checking the natural-language specification
against the code.
-/

namespace MySqlToHive

/-! ## MySQL field type codes

Numeric values of `MySQLdb.constants.FIELD_TYPE` (the MySQL client/server
protocol column type codes) referenced by `type_map`. -/

namespace FIELD_TYPE

def DECIMAL : Int := 0
def TINY : Int := 1
def SHORT : Int := 2
def LONG : Int := 3
def FLOAT : Int := 4
def DOUBLE : Int := 5
def TIMESTAMP : Int := 7
def LONGLONG : Int := 8
def INT24 : Int := 9
def YEAR : Int := 13
def BIT : Int := 16
def NEWDECIMAL : Int := 246

end FIELD_TYPE

/-- Embedding of `MySqlToHiveOperator.type_map`: the Python dict lookup
`type_map.get(mysql_type, 'STRING')` over the table written in the source,
with `'STRING'` as the default for any code not in the table. -/
def type_map (mysql_type : Int) : String :=
  if mysql_type = FIELD_TYPE.BIT then "INT"
  else if mysql_type = FIELD_TYPE.DECIMAL then "DOUBLE"
  else if mysql_type = FIELD_TYPE.NEWDECIMAL then "DOUBLE"
  else if mysql_type = FIELD_TYPE.DOUBLE then "DOUBLE"
  else if mysql_type = FIELD_TYPE.FLOAT then "DOUBLE"
  else if mysql_type = FIELD_TYPE.INT24 then "INT"
  else if mysql_type = FIELD_TYPE.LONG then "BIGINT"
  else if mysql_type = FIELD_TYPE.LONGLONG then "DECIMAL(38,0)"
  else if mysql_type = FIELD_TYPE.SHORT then "INT"
  else if mysql_type = FIELD_TYPE.TINY then "SMALLINT"
  else if mysql_type = FIELD_TYPE.YEAR then "INT"
  else if mysql_type = FIELD_TYPE.TIMESTAMP then "TIMESTAMP"
  else "STRING"

/-- The source type codes that appear as keys of the mapping table. -/
def supportedCodes : List Int :=
  [FIELD_TYPE.BIT, FIELD_TYPE.DECIMAL, FIELD_TYPE.NEWDECIMAL, FIELD_TYPE.DOUBLE,
   FIELD_TYPE.FLOAT, FIELD_TYPE.INT24, FIELD_TYPE.LONG, FIELD_TYPE.LONGLONG,
   FIELD_TYPE.SHORT, FIELD_TYPE.TINY, FIELD_TYPE.YEAR, FIELD_TYPE.TIMESTAMP]

/-- Every destination type name `type_map` can produce. -/
def destTypeNames : List String :=
  ["INT", "DOUBLE", "BIGINT", "DECIMAL(38,0)", "SMALLINT", "TIMESTAMP", "STRING"]

/-! ## Field dictionary

`execute` builds `field_dict = OrderedDict()` and then, for each cursor
description entry `field`, performs `field_dict[field[0]] = self.type_map(field[1])`.
We embed the ordered dictionary as an association list with Python's dict
assignment semantics: assigning to an existing key updates its value in place
(keeping its original position), assigning a fresh key appends it. -/

/-- A cursor description entry: column name and source type code
(`field[0]` and `field[1]` in the source). -/
abbrev ColumnDesc := String × Int

/-- Python dict assignment `m[k] = v` on an association list: update in place
when the key is present, append otherwise. -/
def dictAssign (m : List (String × String)) (k : String) (v : String) :
    List (String × String) :=
  if m.any (fun p => p.1 = k) then
    m.map (fun p => if p.1 = k then (k, v) else p)
  else
    m ++ [(k, v)]

/-- The `field_dict` loop of `execute`:
`for field in cursor.description: field_dict[field[0]] = self.type_map(field[1])`. -/
def buildFieldDict (desc : List ColumnDesc) : List (String × String) :=
  desc.foldl (fun m f => dictAssign m f.1 (type_map f.2)) []

/-- The key sequence of an ordered dictionary. -/
def dictKeys (m : List (String × String)) : List String :=
  m.map Prod.fst

/-- Ordered-dictionary lookup. -/
def dictFind (m : List (String × String)) (k : String) : Option String :=
  (m.find? (fun p => p.1 = k)).map Prod.snd

/-- The type code of the last column named `n` in a cursor description. -/
def lastCode (desc : List ColumnDesc) (n : String) : Option Int :=
  match desc with
  | [] => none
  | f :: rest =>
    match lastCode rest n with
    | some t => some t
    | none => if f.1 = n then some f.2 else none

/-- First-occurrence deduplication relative to a list of already-seen keys:
the key order a Python dict ends up with after repeated assignments. -/
def keepFirst (seen : List String) : List String → List String
  | [] => []
  | n :: ns => if n ∈ seen then keepFirst seen ns else n :: keepFirst (n :: seen) ns

/-! ## CSV staging

`execute` stages rows with `csv.writer(f, delimiter=..., quoting=self.quoting,
quotechar=..., escapechar=..., encoding="utf-8")` where
`self.quoting = quoting or csv.QUOTE_MINIMAL` and `escapechar` defaults to
`None`.  The `unicodecsv` writer/reader pair is a third-party dependency, not
under `src/`; the definitions below model its documented semantics for the
operator's active configuration (QUOTE_MINIMAL, doublequote, line terminator
`"\r\n"`, no escape character), per the staging contract of the spec:
a field is quoted exactly when it contains the delimiter, the quote
character, or a line-terminator character; an embedded quote character is
doubled; a record consisting of a single empty field is written quoted (so it
is distinguishable from an empty record); the reader reverses these rules and
yields the empty record for a blank line. Fields are lists of characters. -/

/-- A character forcing a QUOTE_MINIMAL field to be quoted: the delimiter,
the quote character, or a character of the `"\r\n"` line terminator. -/
def specialChar (d q c : Char) : Bool :=
  c = d || c = q || c = '\r' || c = '\n'

/-- QUOTE_MINIMAL: quote a field iff it contains a special character. -/
def needsQuote (d q : Char) (f : List Char) : Bool :=
  f.any (specialChar d q)

/-- Double every embedded quote character (the `doublequote=True` behaviour). -/
def escapeQuotes (q : Char) : List Char → List Char
  | [] => []
  | c :: cs => if c = q then q :: q :: escapeQuotes q cs else c :: escapeQuotes q cs

/-- Serialize one field under QUOTE_MINIMAL. -/
def writeField (d q : Char) (f : List Char) : List Char :=
  if needsQuote d q f then q :: (escapeQuotes q f ++ [q]) else f

/-- Serialize the cells of a row, separated by the delimiter. -/
def writeCells (d q : Char) : List (List Char) → List Char
  | [] => []
  | [f] => writeField d q f
  | f :: f2 :: fs => writeField d q f ++ d :: writeCells d q (f2 :: fs)

/-- Serialize one row: the joined cells followed by the `"\r\n"` line
terminator.  A record that is a single empty field is written as a quoted
empty field (the csv writer's special case, so that the line is not blank). -/
def writeRow (d q : Char) (r : List (List Char)) : List Char :=
  (if r = [[]] then [q, q] else writeCells d q r) ++ ['\r', '\n']

/-- Serialize a whole row list, as `csv_writer.writerows` does. -/
def writeRows (d q : Char) (rows : List (List (List Char))) : List Char :=
  (rows.map (writeRow d q)).flatten

/-- Reader state inside a quoted field. `pend = true` means the previous
character was a quote character whose role (closing quote or first half of a
doubled quote) is still undecided.  Returns the field content and the input
remaining after the closing quote. -/
def scanQuoted (q : Char) (pend : Bool) : List Char → List Char × List Char
  | [] => ([], [])
  | c :: cs =>
    if pend then
      if c = q then
        ((scanQuoted q false cs).1.cons q, (scanQuoted q false cs).2)
      else ([], c :: cs)
    else
      if c = q then scanQuoted q true cs
      else ((scanQuoted q false cs).1.cons c, (scanQuoted q false cs).2)

/-- Read an unquoted field: everything up to the delimiter or a
line-terminator character. -/
def scanPlain (d : Char) : List Char → List Char × List Char
  | [] => ([], [])
  | c :: cs =>
    if c = d || c = '\r' || c = '\n' then ([], c :: cs)
    else ((scanPlain d cs).1.cons c, (scanPlain d cs).2)

/-- Read one field: quoted when it starts with the quote character,
plain otherwise. -/
def scanField (d q : Char) (s : List Char) : List Char × List Char :=
  match s with
  | [] => ([], [])
  | c :: cs => if c = q then scanQuoted q false cs else scanPlain d (c :: cs)

theorem scanQuoted_length (q : Char) :
    ∀ (s : List Char) (pend : Bool), (scanQuoted q pend s).2.length ≤ s.length := by
  intro s
  induction s with
  | nil => intro pend; simp [scanQuoted]
  | cons c cs ih =>
    intro pend
    have h0 := ih false
    have h1 := ih true
    by_cases hp : pend = true <;> by_cases hc : c = q <;>
      simp [scanQuoted, hp, hc, List.length_cons] <;> omega

theorem scanPlain_length (d : Char) :
    ∀ s : List Char, (scanPlain d s).2.length ≤ s.length := by
  intro s
  induction s with
  | nil => simp [scanPlain]
  | cons c cs ih =>
    by_cases hc : c = d || c = '\r' || c = '\n' <;>
      simp [scanPlain, hc, List.length_cons] <;> omega

theorem scanPlain_stop (d : Char) :
    ∀ (s : List Char) (c : Char) (r : List Char),
      (scanPlain d s).2 = c :: r → c = d ∨ c = '\r' ∨ c = '\n' := by
  intro s
  induction s with
  | nil => intro c r h; simp [scanPlain] at h
  | cons x xs ih =>
    intro c r h
    simp only [scanPlain] at h
    by_cases hx : x = d || x = '\r' || x = '\n'
    · rw [if_pos hx] at h
      have h' : x :: xs = c :: r := h
      injection h' with h1 h2
      subst h1
      rcases Bool.or_eq_true_iff.mp hx with h3 | h3
      · rcases Bool.or_eq_true_iff.mp h3 with h4 | h4
        · exact Or.inl (by exact of_decide_eq_true h4)
        · exact Or.inr (Or.inl (by exact of_decide_eq_true h4))
      · exact Or.inr (Or.inr (by exact of_decide_eq_true h3))
    · rw [if_neg hx] at h
      have h' : (scanPlain d xs).2 = c :: r := h
      exact ih c r h'

theorem scanField_length (d q : Char) (s : List Char) :
    (scanField d q s).2.length ≤ s.length := by
  match s with
  | [] => simp [scanField]
  | c :: cs =>
    simp only [scanField]
    by_cases hc : c = q
    · simp only [hc, if_pos rfl]
      exact Nat.le_succ_of_le (scanQuoted_length q cs false)
    · simp only [hc, if_neg hc]
      exact scanPlain_length d (c :: cs)

/-- Read one record: fields separated by the delimiter, terminated by
`"\r\n"` (or a lone terminator character, or the end of input). Returns the
record and the input remaining after the terminator. -/
def scanRecord (d q : Char) (s : List Char) : List (List Char) × List Char :=
  match h : scanField d q s with
  | (f, []) => ([f], [])
  | (f, c :: r) =>
    if c = d then
      ((scanRecord d q r).1.cons f, (scanRecord d q r).2)
    else if c = '\r' then
      match r with
      | [] => ([f], [])
      | c2 :: r2 => if c2 = '\n' then ([f], r2) else ([f], c2 :: r2)
    else if c = '\n' then ([f], r)
    else ([f], c :: r)
termination_by s.length
decreasing_by
  all_goals
    have hl := scanField_length d q s
    rw [h] at hl
    simp only [List.length_cons] at hl
    omega

theorem scanRecord_length (d q : Char) :
    ∀ (n : Nat) (s : List Char), s.length ≤ n → s ≠ [] →
      (scanRecord d q s).2.length < s.length := by
  intro n
  induction n with
  | zero =>
    intro s hn hne
    cases s with
    | nil => exact absurd rfl hne
    | cons c cs => simp at hn
  | succ m ih =>
    intro s hn hne
    have hpos : 0 < s.length := List.length_pos.mpr hne
    rw [scanRecord]
    split
    · exact hpos
    · rename_i f c r hf
      have hl := scanField_length d q s
      rw [hf] at hl
      simp only [List.length_cons] at hl
      by_cases hcd : c = d
      · rw [if_pos hcd]
        by_cases hr : r = []
        · subst hr
          have h0 : scanRecord d q [] = ([[]], []) := by
            rw [scanRecord]
            simp [scanField]
          show (scanRecord d q []).2.length < s.length
          rw [h0]
          exact hpos
        · have hrec := ih r (by omega) hr
          show (scanRecord d q r).2.length < s.length
          omega
      · rw [if_neg hcd]
        by_cases hcr : c = '\r'
        · rw [if_pos hcr]
          cases r with
          | nil => exact hpos
          | cons c2 r2 =>
            simp only [List.length_cons] at hl
            show (if c2 = '\n' then ([f], r2) else ([f], c2 :: r2) :
                List (List Char) × List Char).2.length < s.length
            by_cases h2 : c2 = '\n'
            · rw [if_pos h2]
              show r2.length < s.length
              omega
            · rw [if_neg h2]
              show (c2 :: r2).length < s.length
              simp only [List.length_cons]
              omega
        · rw [if_neg hcr]
          by_cases hcn : c = '\n'
          · rw [if_pos hcn]
            show r.length < s.length
            omega
          · rw [if_neg hcn]
            show (c :: r).length < s.length
            -- `scanField` stopped at a character that is not a delimiter or
            -- terminator, which only a quoted field can do, so at least the
            -- opening quote was consumed.
            cases s with
            | nil => exact absurd rfl hne
            | cons c0 cs =>
              by_cases h0 : c0 = q
              · have hsf : scanField d q (c0 :: cs) = scanQuoted q false cs := by
                  simp [scanField, h0]
                rw [hsf] at hf
                have hq := scanQuoted_length q cs false
                rw [hf] at hq
                simp only [List.length_cons] at hq ⊢
                omega
              · have hsf : scanField d q (c0 :: cs) = scanPlain d (c0 :: cs) := by
                  simp [scanField, h0]
                rw [hsf] at hf
                have hst := scanPlain_stop d (c0 :: cs) c r (by rw [hf])
                rcases hst with h | h | h
                · exact absurd h hcd
                · exact absurd h hcr
                · exact absurd h hcn

theorem scanRecord_lt (d q : Char) (s : List Char) (h : s ≠ []) :
    (scanRecord d q s).2.length < s.length :=
  scanRecord_length d q s.length s (Nat.le_refl _) h

/-- Read all records of a staged file.  A line that is empty (its first
character is already a line terminator) is the empty record. -/
def scanRecords (d q : Char) (s : List Char) : List (List (List Char)) :=
  match s with
  | [] => []
  | c :: r =>
    if c = '\r' then
      match r with
      | [] => [[]]
      | c2 :: r2 =>
        if c2 = '\n' then [] :: scanRecords d q r2
        else [] :: scanRecords d q (c2 :: r2)
    else if c = '\n' then [] :: scanRecords d q r
    else
      (scanRecord d q (c :: r)).1 :: scanRecords d q (scanRecord d q (c :: r)).2
termination_by s.length
decreasing_by
  all_goals first
    | (simp only [List.length_cons]; omega)
    | (exact scanRecord_lt _ _ _ (by simp))

/-- The input remaining after a serialized field: empty, or starting with the
delimiter or a line-terminator character. -/
def headStops (d : Char) : List Char → Prop
  | [] => True
  | c :: _ => c = d ∨ c = '\r' ∨ c = '\n'

theorem scanPlain_append (d q : Char) :
    ∀ (f rest : List Char),
      (∀ c ∈ f, specialChar d q c = false) →
      headStops d rest →
      scanPlain d (f ++ rest) = (f, rest) := by
  intro f
  induction f with
  | nil =>
    intro rest hf hrest
    cases rest with
    | nil => simp [scanPlain]
    | cons c r =>
      simp only [headStops] at hrest
      rw [List.nil_append]
      simp only [scanPlain]
      rw [if_pos (by rcases hrest with h | h | h <;> simp [h])]
  | cons a f' ih =>
    intro rest hf hrest
    have ha : specialChar d q a = false := hf a (by simp)
    simp only [specialChar, Bool.or_eq_false_iff, decide_eq_false_iff_not] at ha
    rw [List.cons_append]
    simp only [scanPlain]
    rw [if_neg (by simp [ha.1.1.1, ha.1.2, ha.2])]
    rw [ih rest (fun c hc => hf c (by simp [hc])) hrest]

theorem scanQuoted_append (q : Char) :
    ∀ (f rest : List Char),
      (∀ c r', rest = c :: r' → c ≠ q) →
      scanQuoted q false (escapeQuotes q f ++ (q :: rest)) = (f, rest) := by
  intro f
  induction f with
  | nil =>
    intro rest hrest
    rw [escapeQuotes, List.nil_append]
    cases rest with
    | nil => simp [scanQuoted]
    | cons c r =>
      have hcq : ¬c = q := hrest c r rfl
      simp [scanQuoted, hcq]
  | cons a f' ih =>
    intro rest hrest
    by_cases haq : a = q
    · subst haq
      rw [escapeQuotes, if_pos rfl, List.cons_append, List.cons_append]
      simp only [scanQuoted]
      simp only [if_pos rfl, Bool.false_eq_true, if_false, if_true]
      rw [ih rest hrest]
    · rw [escapeQuotes, if_neg haq, List.cons_append]
      simp only [scanQuoted]
      simp only [if_neg haq, Bool.false_eq_true, if_false]
      rw [ih rest hrest]

theorem scanField_append (d q : Char) (f rest : List Char)
    (hdq : d ≠ q) (hqr : q ≠ '\r') (hqn : q ≠ '\n')
    (hrest : headStops d rest) :
    scanField d q (writeField d q f ++ rest) = (f, rest) := by
  have hrq : ∀ c r', rest = c :: r' → c ≠ q := by
    intro c r' hc
    rw [hc] at hrest
    simp only [headStops] at hrest
    rcases hrest with h | h | h
    · rw [h]; exact fun hh => hdq hh
    · rw [h]; exact fun hh => hqr hh.symm
    · rw [h]; exact fun hh => hqn hh.symm
  by_cases hq : needsQuote d q f
  · rw [writeField, if_pos hq]
    rw [List.cons_append, List.append_assoc, List.singleton_append]
    simp only [scanField, if_pos rfl]
    exact scanQuoted_append q f rest hrq
  · rw [writeField, if_neg hq]
    have hf : ∀ c ∈ f, specialChar d q c = false := by
      intro c hc
      by_contra hcontra
      exact hq (List.any_eq_true.mpr ⟨c, hc, by
        cases h : specialChar d q c
        · exact absurd h hcontra
        · rfl⟩)
    cases f with
    | nil =>
      rw [List.nil_append]
      cases rest with
      | nil => simp [scanField]
      | cons c r =>
        simp only [scanField]
        rw [if_neg (hrq c r rfl)]
        have := scanPlain_append d q [] (c :: r) (by simp) hrest
        simpa using this
    | cons a f' =>
      have ha : specialChar d q a = false := hf a (by simp)
      have haq : ¬a = q := by
        simp only [specialChar, Bool.or_eq_false_iff, decide_eq_false_iff_not] at ha
        exact ha.1.1.2
      rw [List.cons_append]
      simp only [scanField]
      rw [if_neg haq]
      rw [← List.cons_append]
      exact scanPlain_append d q (a :: f') rest hf hrest

theorem scanRecord_writeCells (d q : Char)
    (hdq : d ≠ q) (hdr : d ≠ '\r') (hdn : d ≠ '\n')
    (hqr : q ≠ '\r') (hqn : q ≠ '\n') :
    ∀ (fs : List (List Char)) (rest : List Char), fs ≠ [] →
      scanRecord d q (writeCells d q fs ++ ('\r' :: '\n' :: rest)) = (fs, rest) := by
  intro fs
  induction fs with
  | nil => intro rest h; exact absurd rfl h
  | cons f fs' ih =>
    intro rest h
    cases fs' with
    | nil =>
      rw [writeCells]
      have hsf := scanField_append d q f ('\r' :: '\n' :: rest) hdq hqr hqn
        (by simp [headStops])
      rw [scanRecord]
      split
      · rename_i f0 h0
        rw [hsf] at h0
        exact absurd (congrArg Prod.snd h0) (by simp)
      · rename_i f0 c r h0
        rw [hsf] at h0
        have hf0 : f = f0 := congrArg Prod.fst h0
        have hcr : ('\r' : Char) :: '\n' :: rest = c :: r :=
          congrArg Prod.snd h0
        injection hcr with hc hr
        subst hf0
        subst hc
        subst hr
        rw [if_neg (fun hh => hdr hh.symm), if_pos rfl]
        simp
    | cons f2 fs2 =>
      rw [writeCells, List.append_assoc, List.cons_append]
      have hsf := scanField_append d q f
        (d :: (writeCells d q (f2 :: fs2) ++ '\r' :: '\n' :: rest)) hdq hqr hqn
        (by simp [headStops])
      rw [scanRecord]
      split
      · rename_i f0 h0
        rw [hsf] at h0
        exact absurd (congrArg Prod.snd h0) (by simp)
      · rename_i f0 c r h0
        rw [hsf] at h0
        have hf0 : f = f0 := congrArg Prod.fst h0
        have hcr : d :: (writeCells d q (f2 :: fs2) ++ '\r' :: '\n' :: rest)
            = c :: r := congrArg Prod.snd h0
        injection hcr with hc hr
        subst hf0
        subst hc
        subst hr
        rw [if_pos rfl]
        rw [ih rest (List.cons_ne_nil _ _)]

theorem scanRecord_writeRow (d q : Char)
    (hdq : d ≠ q) (hdr : d ≠ '\r') (hdn : d ≠ '\n')
    (hqr : q ≠ '\r') (hqn : q ≠ '\n')
    (r : List (List Char)) (rest : List Char) (h : r ≠ []) :
    scanRecord d q (writeRow d q r ++ rest) = (r, rest) := by
  by_cases hsingle : r = [[]]
  · subst hsingle
    rw [writeRow, if_pos rfl]
    simp only [List.append_assoc, List.cons_append, List.nil_append]
    have hq : scanField d q (q :: q :: '\r' :: '\n' :: rest)
        = ([], '\r' :: '\n' :: rest) := by
      have hrq : ¬('\r' : Char) = q := fun hh => hqr hh.symm
      simp [scanField, scanQuoted, hrq]
    rw [scanRecord]
    split
    · rename_i f0 h0
      rw [hq] at h0
      exact absurd (congrArg Prod.snd h0) (by simp)
    · rename_i f0 c r0 h0
      rw [hq] at h0
      have hf0 : ([] : List Char) = f0 := congrArg Prod.fst h0
      have hcr : ('\r' : Char) :: '\n' :: rest = c :: r0 :=
        congrArg Prod.snd h0
      injection hcr with hc hr
      subst hc
      subst hr
      subst hf0
      rw [if_neg (fun hh => hdr hh.symm), if_pos rfl]
      simp
  · rw [writeRow, if_neg hsingle, List.append_assoc, List.cons_append,
        List.cons_append, List.nil_append]
    exact scanRecord_writeCells d q hdq hdr hdn hqr hqn r rest h

theorem writeRow_head (d q : Char) (hdr : d ≠ '\r') (hdn : d ≠ '\n')
    (hqr : q ≠ '\r') (hqn : q ≠ '\n') (r : List (List Char)) (h : r ≠ []) :
    ∃ c t, writeRow d q r = c :: t ∧ ¬c = '\r' ∧ ¬c = '\n' := by
  by_cases hs : r = [[]]
  · subst hs
    refine ⟨q, [q, '\r', '\n'], ?_, hqr, hqn⟩
    rw [writeRow, if_pos rfl]
    rfl
  · cases r with
    | nil => exact absurd rfl h
    | cons f fs =>
      rw [writeRow, if_neg hs]
      by_cases hqf : needsQuote d q f
      · have hwf : writeField d q f = q :: (escapeQuotes q f ++ [q]) := by
          rw [writeField, if_pos hqf]
        cases fs with
        | nil =>
          rw [writeCells, hwf]
          exact ⟨q, _, rfl, hqr, hqn⟩
        | cons f2 fs2 =>
          rw [writeCells, hwf]
          exact ⟨q, _, rfl, hqr, hqn⟩
      · have hwf : writeField d q f = f := by rw [writeField, if_neg hqf]
        cases f with
        | nil =>
          cases fs with
          | nil => exact absurd rfl hs
          | cons f2 fs2 =>
            rw [writeCells, hwf]
            exact ⟨d, _, rfl, hdr, hdn⟩
        | cons a f' =>
          have ha : specialChar d q a = false := by
            cases hsc : specialChar d q a
            · rfl
            · exact absurd (by
                rw [needsQuote]
                exact List.any_eq_true.mpr ⟨a, by simp, hsc⟩) hqf
          simp only [specialChar, Bool.or_eq_false_iff,
            decide_eq_false_iff_not] at ha
          cases fs with
          | nil =>
            rw [writeCells, hwf]
            exact ⟨a, _, rfl, ha.1.2, ha.2⟩
          | cons f2 fs2 =>
            rw [writeCells, hwf]
            exact ⟨a, _, rfl, ha.1.2, ha.2⟩

theorem scanRecords_nil (d q : Char) : scanRecords d q [] = [] := by
  rw [scanRecords]

theorem scanRecords_crlf (d q : Char) (s : List Char) :
    scanRecords d q ('\r' :: '\n' :: s) = [] :: scanRecords d q s := by
  rw [scanRecords]
  simp

theorem scanRecords_cons (d q c : Char) (s : List Char)
    (h1 : ¬c = '\r') (h2 : ¬c = '\n') :
    scanRecords d q (c :: s)
      = (scanRecord d q (c :: s)).1 :: scanRecords d q (scanRecord d q (c :: s)).2 := by
  rw [scanRecords.eq_def]
  simp [h1, h2]

/-- Round trip of the staging step: parsing a staged file with the same
delimiter, quote character and (minimal) quoting policy reproduces the
original rows exactly. -/
theorem writeRows_roundTrip (d q : Char)
    (hdq : d ≠ q) (hdr : d ≠ '\r') (hdn : d ≠ '\n')
    (hqr : q ≠ '\r') (hqn : q ≠ '\n') :
    ∀ rows : List (List (List Char)),
      scanRecords d q (writeRows d q rows) = rows := by
  intro rows
  induction rows with
  | nil =>
    have h0 : writeRows d q [] = [] := by simp [writeRows]
    rw [h0, scanRecords_nil]
  | cons r rows' ih =>
    have hsplit : writeRows d q (r :: rows')
        = writeRow d q r ++ writeRows d q rows' := by
      simp [writeRows]
    rw [hsplit]
    by_cases hr : r = []
    · subst hr
      have hwr : writeRow d q [] = ['\r', '\n'] := by
        rw [writeRow, if_neg (by simp), writeCells]
        rfl
      rw [hwr, List.cons_append, List.cons_append, List.nil_append,
        scanRecords_crlf, ih]
    · obtain ⟨c, t, hw, hc1, hc2⟩ := writeRow_head d q hdr hdn hqr hqn r hr
      have hcons : writeRow d q r ++ writeRows d q rows'
          = c :: (t ++ writeRows d q rows') := by
        rw [hw]
        rfl
      rw [hcons, scanRecords_cons d q c _ hc1 hc2, ← hcons,
        scanRecord_writeRow d q hdq hdr hdn hqr hqn r _ hr]
      simp [ih]

/-! ## Field-dictionary lemmas -/

theorem dictFind_nil (n : String) : dictFind [] n = none := rfl

theorem dictFind_cons (x : String × String) (l : List (String × String))
    (n : String) :
    dictFind (x :: l) n = if x.1 = n then some x.2 else dictFind l n := by
  by_cases h : x.1 = n
  · simp [dictFind, List.find?, h]
  · simp [dictFind, List.find?, h]

theorem dictFind_map_ne (k v n : String) (hne : ¬n = k) :
    ∀ m : List (String × String),
      dictFind (m.map (fun p => if p.1 = k then (k, v) else p)) n
        = dictFind m n := by
  intro m
  induction m with
  | nil => rfl
  | cons p m' ih =>
    rw [List.map_cons, dictFind_cons, dictFind_cons]
    by_cases hpk : p.1 = k
    · rw [if_pos hpk]
      have h1 : ¬((k, v).1 = n) := fun hh => hne (hh.symm)
      have h2 : ¬(p.1 = n) := by rw [hpk]; exact fun hh => hne hh.symm
      rw [if_neg h1, if_neg h2]
      exact ih
    · rw [if_neg hpk]
      by_cases hpn : p.1 = n
      · rw [if_pos hpn, if_pos hpn]
      · rw [if_neg hpn, if_neg hpn]
        exact ih

theorem dictFind_map_eq (k v : String) :
    ∀ m : List (String × String),
      m.any (fun p => p.1 = k) = true →
      dictFind (m.map (fun p => if p.1 = k then (k, v) else p)) k
        = some v := by
  intro m
  induction m with
  | nil => intro h; simp at h
  | cons p m' ih =>
    intro h
    rw [List.map_cons, dictFind_cons]
    by_cases hpk : p.1 = k
    · rw [if_pos hpk]
      rw [if_pos rfl]
    · rw [if_neg hpk]
      have h2 : ¬((p : String × String).1 = k) := hpk
      rw [if_neg h2]
      apply ih
      simp only [List.any_cons] at h
      rcases Bool.or_eq_true_iff.mp h with h3 | h3
      · exact absurd (of_decide_eq_true h3) hpk
      · exact h3

theorem dictFind_append_new (k v n : String) :
    ∀ m : List (String × String), m.any (fun p => p.1 = k) = false →
      dictFind (m ++ [(k, v)]) n = if n = k then some v else dictFind m n := by
  intro m
  induction m with
  | nil =>
    intro hno
    rw [List.nil_append, dictFind_cons]
    by_cases h : n = k
    · rw [if_pos h, if_pos (by rw [h])]
    · rw [if_neg h, if_neg (fun hh : k = n => h hh.symm)]
  | cons p m' ih =>
    intro hno
    simp only [List.any_cons, Bool.or_eq_false_iff,
      decide_eq_false_iff_not] at hno
    rw [List.cons_append, dictFind_cons, dictFind_cons]
    by_cases hpn : p.1 = n
    · have h : ¬n = k := fun hh => hno.1 (by rw [hpn, hh])
      rw [if_pos hpn, if_pos hpn, if_neg h]
    · rw [if_neg hpn, if_neg hpn]
      exact ih hno.2

theorem dictFind_dictAssign (m : List (String × String)) (k v n : String) :
    dictFind (dictAssign m k v) n = if n = k then some v else dictFind m n := by
  rw [dictAssign]
  by_cases hany : m.any (fun p => p.1 = k) = true
  · rw [if_pos hany]
    by_cases h : n = k
    · rw [if_pos h, h]
      exact dictFind_map_eq k v m hany
    · rw [if_neg h]
      exact dictFind_map_ne k v n h m
  · rw [if_neg hany]
    exact dictFind_append_new k v n m (Bool.eq_false_iff.mpr hany)

theorem dictKeys_dictAssign (m : List (String × String)) (k v : String) :
    dictKeys (dictAssign m k v)
      = if m.any (fun p => p.1 = k) = true then dictKeys m
        else dictKeys m ++ [k] := by
  rw [dictAssign]
  by_cases hany : m.any (fun p => p.1 = k) = true
  · rw [if_pos hany, if_pos hany]
    rw [dictKeys, List.map_map]
    apply List.map_congr_left
    intro p hp
    by_cases hpk : p.1 = k
    · simp [hpk]
    · simp [hpk]
  · rw [if_neg hany, if_neg hany]
    rw [dictKeys, dictKeys, List.map_append]
    rfl

theorem dictAny_iff_mem_keys (m : List (String × String)) (k : String) :
    m.any (fun p => p.1 = k) = true ↔ k ∈ dictKeys m := by
  simp [List.any_eq_true, dictKeys, List.mem_map]

theorem keepFirst_congr :
    ∀ (s1 s2 : List String), (∀ x, x ∈ s1 ↔ x ∈ s2) →
      ∀ l, keepFirst s1 l = keepFirst s2 l := by
  intro s1 s2 hiff l
  induction l generalizing s1 s2 with
  | nil => rfl
  | cons n ns ih =>
    rw [keepFirst, keepFirst]
    by_cases hm : n ∈ s1
    · rw [if_pos hm, if_pos ((hiff n).mp hm), ih s1 s2 hiff]
    · rw [if_neg hm, if_neg (fun hh => hm ((hiff n).mpr hh))]
      rw [ih (n :: s1) (n :: s2) (by intro x; simp [hiff x])]

theorem keepFirst_sublist :
    ∀ (l seen : List String), (keepFirst seen l).Sublist l := by
  intro l
  induction l with
  | nil => intro seen; exact List.Sublist.refl _
  | cons n ns ih =>
    intro seen
    rw [keepFirst]
    by_cases hm : n ∈ seen
    · rw [if_pos hm]
      exact (ih seen).cons n
    · rw [if_neg hm]
      exact (ih (n :: seen)).cons₂ n

theorem keepFirst_not_mem_of_seen :
    ∀ (l seen : List String) (x : String), x ∈ seen → x ∉ keepFirst seen l := by
  intro l
  induction l with
  | nil => intro seen x hx; simp [keepFirst]
  | cons n ns ih =>
    intro seen x hx
    rw [keepFirst]
    by_cases hm : n ∈ seen
    · rw [if_pos hm]
      exact ih seen x hx
    · rw [if_neg hm]
      intro hmem
      rcases List.mem_cons.mp hmem with h | h
      · exact hm (h ▸ hx)
      · exact ih (n :: seen) x (List.mem_cons_of_mem n hx) h

theorem keepFirst_nodup :
    ∀ (l seen : List String), (keepFirst seen l).Nodup := by
  intro l
  induction l with
  | nil => intro seen; simp [keepFirst]
  | cons n ns ih =>
    intro seen
    rw [keepFirst]
    by_cases hm : n ∈ seen
    · rw [if_pos hm]
      exact ih seen
    · rw [if_neg hm]
      refine List.nodup_cons.mpr ⟨?_, ih (n :: seen)⟩
      exact keepFirst_not_mem_of_seen ns (n :: seen) n (by simp)

theorem keepFirst_mem :
    ∀ (l seen : List String) (x : String),
      x ∈ keepFirst seen l ↔ x ∉ seen ∧ x ∈ l := by
  intro l
  induction l with
  | nil => intro seen x; simp [keepFirst]
  | cons n ns ih =>
    intro seen x
    rw [keepFirst]
    by_cases hm : n ∈ seen
    · rw [if_pos hm, ih seen x]
      constructor
      · rintro ⟨h1, h2⟩
        exact ⟨h1, List.mem_cons_of_mem n h2⟩
      · rintro ⟨h1, h2⟩
        rcases List.mem_cons.mp h2 with h | h
        · exact absurd (h ▸ hm) h1
        · exact ⟨h1, h⟩
    · rw [if_neg hm]
      constructor
      · intro hmem
        rcases List.mem_cons.mp hmem with h | h
        · subst h
          exact ⟨hm, by simp⟩
        · have := (ih (n :: seen) x).mp h
          exact ⟨fun hh => this.1 (List.mem_cons_of_mem n hh),
            List.mem_cons_of_mem n this.2⟩
      · rintro ⟨h1, h2⟩
        rcases List.mem_cons.mp h2 with h | h
        · subst h
          exact List.mem_cons_self x _
        · by_cases hxn : x = n
          · subst hxn
            exact List.mem_cons_self x _
          · exact List.mem_cons_of_mem n ((ih (n :: seen) x).mpr
              ⟨by simp [hxn, h1], h⟩)

/-! ## Fold-level characterization of the field dictionary -/

theorem buildFieldDict_from_find :
    ∀ (desc : List ColumnDesc) (m : List (String × String)) (n : String),
      dictFind (desc.foldl (fun acc f => dictAssign acc f.1 (type_map f.2)) m) n
        = match lastCode desc n with
          | some t => some (type_map t)
          | none => dictFind m n := by
  intro desc
  induction desc with
  | nil => intro m n; rfl
  | cons f rest ih =>
    intro m n
    rw [List.foldl_cons, ih, lastCode]
    cases h : lastCode rest n with
    | some t => rfl
    | none =>
      rw [dictFind_dictAssign]
      by_cases hk : f.1 = n
      · rw [if_pos hk, if_pos hk.symm]
      · rw [if_neg hk, if_neg (fun hh => hk hh.symm)]

theorem buildFieldDict_from_keys :
    ∀ (desc : List ColumnDesc) (m : List (String × String)),
      dictKeys (desc.foldl (fun acc f => dictAssign acc f.1 (type_map f.2)) m)
        = dictKeys m ++ keepFirst (dictKeys m) (desc.map Prod.fst) := by
  intro desc
  induction desc with
  | nil => intro m; simp [keepFirst]
  | cons f rest ih =>
    intro m
    rw [List.foldl_cons, ih, List.map_cons, keepFirst]
    by_cases hmem : f.1 ∈ dictKeys m
    · have hany : m.any (fun p => p.1 = f.1) = true :=
        (dictAny_iff_mem_keys m f.1).mpr hmem
      rw [dictKeys_dictAssign, if_pos hany, if_pos hmem]
    · have hany : ¬m.any (fun p => p.1 = f.1) = true :=
        fun hh => hmem ((dictAny_iff_mem_keys m f.1).mp hh)
      rw [dictKeys_dictAssign, if_neg hany, if_neg hmem]
      rw [keepFirst_congr (dictKeys m ++ [f.1]) (f.1 :: dictKeys m)
        (by intro x; simp [or_comm]) (rest.map Prod.fst)]
      rw [List.append_assoc]
      rfl

theorem buildFieldDict_nodup_aux :
    ∀ (desc : List ColumnDesc) (m : List (String × String)),
      (∀ n ∈ desc.map Prod.fst, n ∉ dictKeys m) →
      (desc.map Prod.fst).Nodup →
      desc.foldl (fun acc f => dictAssign acc f.1 (type_map f.2)) m
        = m ++ desc.map (fun f => (f.1, type_map f.2)) := by
  intro desc
  induction desc with
  | nil => intro m hfresh hnd; simp
  | cons f rest ih =>
    intro m hfresh hnd
    have hf : f.1 ∉ dictKeys m := hfresh f.1 (by simp)
    have hany : ¬m.any (fun p => p.1 = f.1) = true :=
      fun hh => hf ((dictAny_iff_mem_keys m f.1).mp hh)
    have hassign : dictAssign m f.1 (type_map f.2)
        = m ++ [(f.1, type_map f.2)] := by
      rw [dictAssign, if_neg hany]
    rw [List.foldl_cons, hassign]
    rw [List.map_cons] at hnd
    have hnd' := List.nodup_cons.mp hnd
    rw [ih (m ++ [(f.1, type_map f.2)]) ?_ hnd'.2]
    · rw [List.append_assoc]
      rfl
    · intro n hn
      rw [dictKeys, List.map_append]
      intro hmem
      rcases List.mem_append.mp hmem with h | h
      · exact hfresh n (by simp [hn]) h
      · simp only [List.map_cons, List.map_nil, List.mem_singleton] at h
        exact hnd'.1 (h ▸ hn)

theorem buildFieldDict_find (desc : List ColumnDesc) (n : String) :
    dictFind (buildFieldDict desc) n = (lastCode desc n).map type_map := by
  have h2 := buildFieldDict_from_find desc [] n
  rw [buildFieldDict]
  cases h : lastCode desc n with
  | none => rw [h] at h2; simpa using h2
  | some t => rw [h] at h2; simpa using h2

theorem buildFieldDict_keys (desc : List ColumnDesc) :
    dictKeys (buildFieldDict desc) = keepFirst [] (desc.map Prod.fst) := by
  have h2 := buildFieldDict_from_keys desc []
  rw [buildFieldDict]
  simpa [dictKeys] using h2

/-! ## Operator construction

Embedding of `MySqlToHiveOperator.__init__`. Optional Python arguments that
default to `None` are `Option`-typed; mappings are association lists.
Python's `x or y` on a mapping/int yields `y` when `x` is `None` or empty
(falsy). csv quoting constants: QUOTE_MINIMAL = 0, QUOTE_ALL = 1,
QUOTE_NONNUMERIC = 2, QUOTE_NONE = 3. -/

structure InitArgs where
  sql : String
  hive_table : String
  create : Bool
  recreate : Bool
  partition : Option (List (String × String))
  delimiter : String
  quoting : Option Nat
  quotechar : String
  escapechar : Option String
  tblproperties : Option (List (String × String))

structure Operator where
  sql : String
  hive_table : String
  partition : List (String × String)
  create : Bool
  recreate : Bool
  delimiter : String
  quoting : Nat
  quotechar : String
  escapechar : Option String
  tblproperties : Option (List (String × String))

def QUOTE_MINIMAL : Nat := 0

/-- The `__init__` body: `self.quoting = quoting or csv.QUOTE_MINIMAL` and
`self.partition = partition or {}` (the final assignment; an earlier
`self.partition = partition` is overwritten). -/
def mkOperator (a : InitArgs) : Operator where
  sql := a.sql
  hive_table := a.hive_table
  partition :=
    match a.partition with
    | none => []
    | some p => if p = [] then [] else p
  create := a.create
  recreate := a.recreate
  delimiter := a.delimiter
  quoting :=
    match a.quoting with
    | none => QUOTE_MINIMAL
    | some v => if v = 0 then QUOTE_MINIMAL else v
  quotechar := a.quotechar
  escapechar := a.escapechar
  tblproperties := a.tblproperties

/-- The partition value `execute` hands to `hive.load_file` is
`self.partition`. -/
def loadPartitionArg (op : Operator) : List (String × String) :=
  op.partition

/-! ## Control flow of `execute`

The externally visible steps of `execute`, in source statement order. The
`with NamedTemporaryFile("wb")` block closes (and, with the default
`delete=True`, removes) the temporary file when the block is exited, whether
normally or by an exception raised inside it; `cursor.close()` and
`conn.close()` are plain statements with no `try`/`finally`, so they are
skipped when an earlier statement raises; `hive.load_file` is called inside
the `with` block, so the file handle is still open during the load. -/

inductive Event where
  | getConn
  | getCursor
  | execQuery
  | fileOpen
  | buildDict
  | rowsWrite
  | fileFlush
  | cursorClose
  | connClose
  | loadCall
  | fileClose
  | raiseErr
deriving DecidableEq, Repr

/-- The statements of `execute` that can raise: the query execution, the
staging writes (row write or flush, an IOError), and the load step. -/
inductive FailStage where
  | query
  | staging
  | loading
deriving DecidableEq, Repr

/-- Event trace of one `execute` run failing at the given stage
(`none` = success), transcribed from the source's statement order. -/
def execTrace : Option FailStage → List Event
  | some FailStage.query =>
      [Event.getConn, Event.getCursor, Event.raiseErr]
  | some FailStage.staging =>
      [Event.getConn, Event.getCursor, Event.execQuery, Event.fileOpen,
       Event.buildDict, Event.raiseErr, Event.fileClose]
  | some FailStage.loading =>
      [Event.getConn, Event.getCursor, Event.execQuery, Event.fileOpen,
       Event.buildDict, Event.rowsWrite, Event.fileFlush, Event.cursorClose,
       Event.connClose, Event.raiseErr, Event.fileClose]
  | none =>
      [Event.getConn, Event.getCursor, Event.execQuery, Event.fileOpen,
       Event.buildDict, Event.rowsWrite, Event.fileFlush, Event.cursorClose,
       Event.connClose, Event.loadCall, Event.fileClose]

/-- Whether event `a` occurs strictly before event `b` in a trace
(first occurrences). -/
def precedesB (tr : List Event) (a b : Event) : Bool :=
  match tr.findIdx? (fun e => e = a), tr.findIdx? (fun e => e = b) with
  | some i, some j => decide (i < j)
  | _, _ => false

/-! ## Warehouse Loader -/

/-- Destination-visible actions of the Warehouse Loader. -/
inductive DestAction where
  | dropTable
  | createTable
  | loadData
deriving DecidableEq, Repr

inductive LoadError where
  | tableNotFound
deriving DecidableEq, Repr

/-- Modelled from the spec: `HiveCliHook.load_file` is a collaborator that is
not under `src/`; section 4.4 of the spec gives its contract. Given the load
options and whether the destination table exists, it fails with
`TableNotFoundError` when neither `create` nor `recreate` is set and the
table is absent, and otherwise performs the drop (recreate only), create
(create or recreate) and load actions, in that order. -/
def load_file (create recreate tableExists : Bool)
    (field_dict : List (String × String))
    (partition : List (String × String)) :
    Except LoadError (List DestAction) :=
  if create = false ∧ recreate = false ∧ tableExists = false then
    Except.error LoadError.tableNotFound
  else
    Except.ok
      ((if recreate = true ∧ tableExists = true then [DestAction.dropTable]
        else [])
        ++ (if create = true ∨ recreate = true then [DestAction.createTable]
            else [])
        ++ [DestAction.loadData])

theorem type_map_default (t : Int) (ht : t ∉ supportedCodes) :
    type_map t = "STRING" := by
  simp only [supportedCodes, List.mem_cons, List.not_mem_nil, or_false,
    not_or] at ht
  obtain ⟨h1, h2, h3, h4, h5, h6, h7, h8, h9, h10, h11, h12⟩ := ht
  unfold type_map
  rw [if_neg h1, if_neg h2, if_neg h3, if_neg h4, if_neg h5, if_neg h6,
    if_neg h7, if_neg h8, if_neg h9, if_neg h10, if_neg h11, if_neg h12]

/-! ## Claims -/

/-- C1: for every supported source type code, `type_map` returns the
documented destination type name (bit → INT, decimal and fixed-decimal →
DOUBLE, double/float → DOUBLE, medium-int → INT, long-int → BIGINT,
long-long-int → DECIMAL(38,0), short-int → INT, tiny-int → SMALLINT,
year → INT, timestamp → TIMESTAMP), and for every type code not in the
mapping table it returns "STRING". -/
theorem claim1_type_map_table :
    type_map FIELD_TYPE.BIT = "INT"
    ∧ type_map FIELD_TYPE.DECIMAL = "DOUBLE"
    ∧ type_map FIELD_TYPE.NEWDECIMAL = "DOUBLE"
    ∧ type_map FIELD_TYPE.DOUBLE = "DOUBLE"
    ∧ type_map FIELD_TYPE.FLOAT = "DOUBLE"
    ∧ type_map FIELD_TYPE.INT24 = "INT"
    ∧ type_map FIELD_TYPE.LONG = "BIGINT"
    ∧ type_map FIELD_TYPE.LONGLONG = "DECIMAL(38,0)"
    ∧ type_map FIELD_TYPE.SHORT = "INT"
    ∧ type_map FIELD_TYPE.TINY = "SMALLINT"
    ∧ type_map FIELD_TYPE.YEAR = "INT"
    ∧ type_map FIELD_TYPE.TIMESTAMP = "TIMESTAMP"
    ∧ (∀ t : Int, t ∉ supportedCodes → type_map t = "STRING") := by
  exact ⟨by decide, by decide, by decide, by decide, by decide, by decide,
    by decide, by decide, by decide, by decide, by decide, by decide,
    fun t ht => type_map_default t ht⟩

/-- C1 witness: the unmapped code 9999 falls through to "STRING". -/
theorem claim1_witness :
    (9999 : Int) ∉ supportedCodes ∧ type_map 9999 = "STRING" :=
  ⟨by decide,
   claim1_type_map_table.2.2.2.2.2.2.2.2.2.2.2.2 9999 (by decide)⟩

/-- C8: `type_map` is total and pure: embedded as a Lean function, it returns
for every integer source type code one of the fixed destination type name
strings, with no failure case. -/
theorem claim8_type_map_total :
    ∀ t : Int, type_map t ∈ destTypeNames := by
  intro t
  by_cases h : t ∈ supportedCodes
  · simp only [supportedCodes, List.mem_cons, List.not_mem_nil,
      or_false] at h
    rcases h with h | h | h | h | h | h | h | h | h | h | h | h <;>
      rw [h] <;> decide
  · rw [type_map_default t h]
    decide

/-- C2 counterexample: with two columns both named "a" (codes long-int and
the unmapped 9999), the Field Dictionary has a single entry, so it cannot
map each column to its own type nor match the two-column metadata order. -/
theorem claim2_counterexample :
    buildFieldDict [("a", FIELD_TYPE.LONG), ("a", 9999)] = [("a", "STRING")]
    ∧ (buildFieldDict [("a", FIELD_TYPE.LONG), ("a", 9999)]).length
        ≠ ([("a", FIELD_TYPE.LONG), ("a", 9999)] : List ColumnDesc).length := by
  constructor
  · rfl
  · decide

/-- C2 (amended): when the cursor's column names are pairwise distinct, the
Field Dictionary maps each column name to the mapped destination type of
that column, and its insertion order is exactly the cursor's column order. -/
theorem claim2_field_dict_order (desc : List ColumnDesc)
    (h : (desc.map Prod.fst).Nodup) :
    buildFieldDict desc = desc.map (fun f => (f.1, type_map f.2)) := by
  have h2 := buildFieldDict_nodup_aux desc [] (by simp [dictKeys]) h
  rw [buildFieldDict]
  simpa using h2

/-- C2 witness: a two-column cursor description with distinct names. -/
theorem claim2_witness :
    (([("id", FIELD_TYPE.LONG), ("name", (9999 : Int))].map Prod.fst).Nodup)
    ∧ buildFieldDict [("id", FIELD_TYPE.LONG), ("name", 9999)]
        = [("id", "BIGINT"), ("name", "STRING")] := by
  refine ⟨by decide, ?_⟩
  rw [claim2_field_dict_order _ (by decide)]
  rfl

/-- C9: if the cursor metadata has two or more columns with the same name,
the Field Dictionary keeps exactly one entry for that name, its value is the
mapped type of the last such column (`lastCode`), and the dictionary is
strictly shorter than the column list. -/
theorem claim9_duplicate_names (desc : List ColumnDesc) (n : String)
    (h : 2 ≤ (desc.map Prod.fst).count n) :
    (dictKeys (buildFieldDict desc)).count n = 1
    ∧ dictFind (buildFieldDict desc) n = (lastCode desc n).map type_map
    ∧ (buildFieldDict desc).length < desc.length := by
  have hmem : n ∈ desc.map Prod.fst := by
    have : 0 < (desc.map Prod.fst).count n := by omega
    exact List.count_pos_iff_mem.mp this
  have hkeys := buildFieldDict_keys desc
  refine ⟨?_, buildFieldDict_find desc n, ?_⟩
  · rw [hkeys]
    have hnd := keepFirst_nodup (desc.map Prod.fst) []
    have hin : n ∈ keepFirst [] (desc.map Prod.fst) :=
      (keepFirst_mem (desc.map Prod.fst) [] n).mpr ⟨by simp, hmem⟩
    exact List.count_eq_one_of_mem hnd hin
  · have hnotnd : ¬(desc.map Prod.fst).Nodup := by
      intro hnd
      have := List.nodup_iff_count_le_one.mp hnd n
      omega
    have hsub := keepFirst_sublist (desc.map Prod.fst) []
    have hne : keepFirst [] (desc.map Prod.fst) ≠ desc.map Prod.fst := by
      intro he
      exact hnotnd (he ▸ keepFirst_nodup (desc.map Prod.fst) [])
    have hlt : (keepFirst [] (desc.map Prod.fst)).length
        < (desc.map Prod.fst).length :=
      Nat.lt_of_le_of_ne hsub.length_le
        (fun he => hne (hsub.eq_of_length he))
    have hlen : (buildFieldDict desc).length
        = (dictKeys (buildFieldDict desc)).length := by
      rw [dictKeys, List.length_map]
    rw [hlen, hkeys]
    simpa using hlt

/-- C9 witness: duplicated column name "a", mapped to the last column's
type. -/
theorem claim9_witness :
    2 ≤ (([("a", FIELD_TYPE.LONG), ("a", (9999 : Int))] : List ColumnDesc).map
          Prod.fst).count "a"
    ∧ (dictKeys (buildFieldDict [("a", FIELD_TYPE.LONG), ("a", 9999)])).count
        "a" = 1
    ∧ dictFind (buildFieldDict [("a", FIELD_TYPE.LONG), ("a", 9999)]) "a"
        = (lastCode [("a", FIELD_TYPE.LONG), ("a", 9999)] "a").map type_map
    ∧ (buildFieldDict [("a", FIELD_TYPE.LONG), ("a", 9999)]).length
        < ([("a", FIELD_TYPE.LONG), ("a", 9999)] : List ColumnDesc).length := by
  have h := claim9_duplicate_names [("a", FIELD_TYPE.LONG), ("a", 9999)] "a"
    (by decide)
  exact ⟨by decide, h.1, h.2.1, h.2.2⟩

/-- C3: writing rows whose values may contain the delimiter, the quote
character or newline characters, then parsing the staged file with the same
delimiter, quote character and (minimal) quoting policy, reproduces the
original values exactly. -/
theorem claim3_roundTrip (d q : Char)
    (hdq : d ≠ q) (hdr : d ≠ '\r') (hdn : d ≠ '\n')
    (hqr : q ≠ '\r') (hqn : q ≠ '\n')
    (rows : List (List (List Char))) :
    scanRecords d q (writeRows d q rows) = rows :=
  writeRows_roundTrip d q hdq hdr hdn hqr hqn rows

/-- C3 witness: the operator's default configuration (delimiter `chr(1)`,
quote character `"`), on rows containing the delimiter, the quote character,
a newline, and an empty value. -/
theorem claim3_witness :
    (Char.ofNat 1 ≠ '"' ∧ Char.ofNat 1 ≠ '\r' ∧ Char.ofNat 1 ≠ '\n'
      ∧ ('"' : Char) ≠ '\r' ∧ ('"' : Char) ≠ '\n')
    ∧ scanRecords (Char.ofNat 1) '"'
        (writeRows (Char.ofNat 1) '"'
          [[['a', Char.ofNat 1, 'b'], ['"']], [['x', '\n', 'y']], [[]]])
        = [[['a', Char.ofNat 1, 'b'], ['"']], [['x', '\n', 'y']], [[]]] :=
  ⟨⟨by decide, by decide, by decide, by decide, by decide⟩,
   claim3_roundTrip (Char.ofNat 1) '"' (by decide) (by decide) (by decide)
     (by decide) (by decide) _⟩

/-- C4 counterexample: in the successful execution trace, the temporary
file's handle is not released before the Loader call (the load happens
inside the `with` block), so the claim's conjunction fails. -/
theorem claim4_counterexample :
    ¬(precedesB (execTrace none) Event.fileFlush Event.loadCall = true
      ∧ precedesB (execTrace none) Event.fileClose Event.loadCall = true) := by
  decide

/-- C4 (amended): in every execution that reaches the load step, the staged
file is flushed before the Loader call, but its handle is released only
after the load completes (releasing earlier would delete the temporary
file). -/
theorem claim4_flush_before_load (fp : Option FailStage)
    (h : Event.loadCall ∈ execTrace fp) :
    precedesB (execTrace fp) Event.fileFlush Event.loadCall = true
    ∧ precedesB (execTrace fp) Event.loadCall Event.fileClose = true := by
  cases fp with
  | none => exact ⟨by decide, by decide⟩
  | some st => cases st <;> simp [execTrace] at h

/-- C4 witness: the successful trace reaches the load step. -/
theorem claim4_witness :
    Event.loadCall ∈ execTrace none
    ∧ (precedesB (execTrace none) Event.fileFlush Event.loadCall = true
       ∧ precedesB (execTrace none) Event.loadCall Event.fileClose = true) :=
  ⟨by decide, claim4_flush_before_load none (by decide)⟩

/-- C5 counterexample: on a failure during staging, neither the cursor nor
the connection is closed (`cursor.close()`/`conn.close()` are plain
statements that are skipped once the exception propagates), so release is
not guaranteed on every exit path. -/
theorem claim5_counterexample :
    Event.cursorClose ∉ execTrace (some FailStage.staging)
    ∧ Event.connClose ∉ execTrace (some FailStage.staging) := by
  decide

/-- C5 (amended): the cursor and connection are closed after the row stream
is consumed, before the load, on the success path (and are already closed
when a loading failure occurs); but on a failure during query execution or
staging they are not closed by `execute`. -/
theorem claim5_close_paths :
    (precedesB (execTrace none) Event.rowsWrite Event.cursorClose = true
     ∧ precedesB (execTrace none) Event.cursorClose Event.connClose = true
     ∧ precedesB (execTrace none) Event.connClose Event.loadCall = true)
    ∧ (Event.cursorClose ∈ execTrace (some FailStage.loading)
       ∧ Event.connClose ∈ execTrace (some FailStage.loading))
    ∧ (Event.cursorClose ∉ execTrace (some FailStage.staging)
       ∧ Event.connClose ∉ execTrace (some FailStage.staging))
    ∧ (Event.cursorClose ∉ execTrace (some FailStage.query)
       ∧ Event.connClose ∉ execTrace (some FailStage.query)) := by
  decide

/-- C6: whenever `execute` opens the temporary staging file, the file is
closed (and, with `NamedTemporaryFile`'s default `delete=True`, removed) as
the last step of every exit path, including failures during staging or
loading. -/
theorem claim6_tempfile_cleanup (fp : Option FailStage)
    (h : Event.fileOpen ∈ execTrace fp) :
    Event.fileClose ∈ execTrace fp
    ∧ (execTrace fp).getLast? = some Event.fileClose := by
  cases fp with
  | none => exact ⟨by decide, by decide⟩
  | some st =>
    cases st with
    | query => simp [execTrace] at h
    | staging => exact ⟨by decide, by decide⟩
    | loading => exact ⟨by decide, by decide⟩

/-- C6 witness: the staging-failure trace opens and still closes the file. -/
theorem claim6_witness :
    Event.fileOpen ∈ execTrace (some FailStage.staging)
    ∧ (Event.fileClose ∈ execTrace (some FailStage.staging)
       ∧ (execTrace (some FailStage.staging)).getLast?
           = some Event.fileClose) :=
  ⟨by decide, claim6_tempfile_cleanup (some FailStage.staging) (by decide)⟩

/-- C7: with create=false and recreate=false and the destination table
absent, the Loader (modelled from the spec) fails with TableNotFoundError
and performs no destination action. -/
theorem claim7_table_not_found (field_dict partition : List (String × String)) :
    load_file false false false field_dict partition
      = Except.error LoadError.tableNotFound := by
  rfl

/-- C10: the partition handed to the Warehouse Loader is always a mapping:
construction with `partition=None` or an empty (falsy) mapping stores the
empty mapping, never `None`; in general the stored value is
`partition.getD []`. -/
theorem claim10_partition_total (a : InitArgs) :
    loadPartitionArg (mkOperator a) = a.partition.getD [] := by
  cases hp : a.partition with
  | none => simp [mkOperator, loadPartitionArg, hp]
  | some d => cases d <;> simp [mkOperator, loadPartitionArg, hp]

end MySqlToHive
